import Mathlib

/-!
# Verification of the amt-augpy annotation-synchronized augmentation pipeline

Shallow embedding of the core of `amt_augpy/main.py` and
`amt_augpy/merge_audio.py`, together with theorems settling the frozen claims
about the parameter sampler, the effect dispatcher, the merge subsystem, the
annotation codec, the parallel executor and the naming scheme.

Modelling conventions:
* Python floats are modelled as rationals (`ℚ`); Python ints as `ℤ`/`ℕ`.
* Randomness (`random.uniform`, `random.randint`, `random.choice`,
  `random.randrange`) is modelled by an explicit stream of draws
  `draw : ℕ → α`: the k-th call of a random primitive returns `draw k`.
  Bounds such as `uniform(a, b) ∈ [a, b]` become hypotheses on the stream.
* Python `set` objects are modelled as duplicate-free lists (`List` +
  `Nodup`); `set.add` is `setAdd`.  CPython's `set.pop` removes an
  unspecified element, so trimming is modelled as keeping a prefix; every
  theorem proved about trimmed sets (size, membership) is independent of
  which elements are removed.
* `round(x, 1)` is modelled with Mathlib's `round` (Python uses
  round-half-even on binary floats; all concrete inputs used below are
  tie-free, so the difference is immaterial).
* Logging is side-effect-only in the source and is not modelled.
-/

/-! ## Parameter sampler (main.py, randomized branches)

The randomized rejection sampler appears once per effect family
(time-stretch: main.py:275-298, noise: main.py:574-597, pitch-shift:
main.py:341-362, reverb: main.py:407-427) with the same shape, differing only
in the identity value and the draw primitive; it is embedded generically. -/

/-- `generated_factors.add(x)` on a Python set: add `x` unless present. -/
def setAdd {α : Type} [DecidableEq α] (x : α) (s : List α) : List α :=
  if x ∈ s then s else s ++ [x]

/-- The inner rejection loop
`while (x == identity or x in generated) and attempts < max_attempts`
(main.py:282-286).  `fuel` is the number of attempts still allowed
(`max_attempts - attempts`, initially 10); `k` is the position in the draw
stream.  Returns the final candidate, whether the attempt budget was fully
consumed (the Python `attempts == max_attempts` test at main.py:288), and the
next stream position. -/
def sampleWhile {α : Type} [DecidableEq α] (identity : α) (draw : ℕ → α)
    (gen : List α) : ℕ → α → ℕ → α × Bool × ℕ
  | 0, x, k => (x, true, k)
  | fuel + 1, x, k =>
    if x = identity ∨ x ∈ gen then
      sampleWhile identity draw gen fuel (draw k) (k + 1)
    else
      (x, false, k)

/-- One iteration of `for i in range(variations)` (main.py:277-298): run the
rejection loop starting from the identity value; on exhaustion skip the slot
when `i > 0`, otherwise draw a fresh fallback value and accept it
unconditionally (main.py:292-296, `# Use anyway`). -/
def sampleSlot {α : Type} [DecidableEq α] (identity : α) (draw : ℕ → α)
    (i : ℕ) (gen : List α) (k : ℕ) : List α × ℕ :=
  match sampleWhile identity draw gen 10 identity k with
  | (x, exhausted, kx) =>
    if exhausted then
      if 0 < i then (gen, kx)
      else (setAdd (draw kx) gen, kx + 1)
    else
      (setAdd x gen, kx)

/-- The slots loop: `n` remaining slots, current slot index `i`, running set
`gen`, stream position `k`. -/
def sampleSlots {α : Type} [DecidableEq α] (identity : α) (draw : ℕ → α) :
    ℕ → ℕ → List α → ℕ → List α
  | 0, _, gen, _ => gen
  | n + 1, i, gen, k =>
    let p := sampleSlot identity draw i gen k
    sampleSlots identity draw n (i + 1) p.1 p.2

/-- The randomized sampler for one effect family (main.py:275-298 for
time-stretch, identically shaped at main.py:574-597 for noise and
main.py:341-362 for pitch-shift): `variations` slots starting from the empty
set. -/
def sampleRandomized {α : Type} [DecidableEq α] (identity : α) (draw : ℕ → α)
    (variations : ℕ) : List α :=
  sampleSlots identity draw variations 0 [] 0

/-- The fallback value accepted unconditionally when the very first slot
exhausts its attempt budget (main.py:292-296), if that happens:
`some` of the fresh draw, else `none`. -/
def slot0Fallback {α : Type} [DecidableEq α] (identity : α) (draw : ℕ → α) :
    Option α :=
  match sampleWhile identity draw [] 10 identity 0 with
  | (_, true, kx) => some (draw kx)
  | (_, false, _) => none

/-- Python `round(x, 1)` (main.py:285), modulo the tie-breaking rule. -/
def round1 (q : ℚ) : ℚ := (round (q * 10) : ℤ) / 10

/-! ## Parameter sampler (grid branches)

Grid mode (main.py:300-311 time-stretch, main.py:363-379 pitch-shift,
main.py:599-610 noise): build `variations + 1` points, convert to a set,
remove the identity value if present, then pop until the set has at most
`variations` elements. -/

/-- `np.linspace(a, b, num)`: `num` evenly spaced points from `a` to `b`
inclusive. -/
def linspace (a b : ℚ) : ℕ → List ℚ
  | 0 => []
  | 1 => [a]
  | n + 2 => (List.range (n + 2)).map (fun i : ℕ => a + (b - a) * (i : ℚ) / (n + 1))

/-- Truncation toward zero, as performed by numpy's `dtype=int` conversion of
linspace points (main.py:364-367). -/
def ratTrunc (q : ℚ) : ℤ := if 0 ≤ q then ⌊q⌋ else -⌊-q⌋

/-- `np.linspace(a, b, num, dtype=int)` (main.py:364-367). -/
def intLinspace (a b : ℤ) (num : ℕ) : List ℤ :=
  (linspace (a : ℚ) (b : ℚ) num).map ratTrunc

/-- `set(list(pts))`, `remove(identity)` guarded by `try/except`, then
`while len > variations: pop()` (main.py:300-311).  The set is modelled as a
duplicate-free list; popping arbitrary elements down to `variations` is
modelled as keeping a prefix (the proved properties do not depend on which
elements survive). -/
def gridTrim {α : Type} [DecidableEq α] (identity : α) (variations : ℕ)
    (pts : List α) : List α :=
  ((pts.dedup).filter (fun x => x ≠ identity)).take variations

/-- The grid-mode pitch-shift parameter set (main.py:363-379). -/
def pitchshiftGrid (a b : ℤ) (variations : ℕ) : List ℤ :=
  gridTrim 0 variations (intLinspace a b (variations + 1))

/-- The grid-mode time-stretch parameter set (main.py:300-311). -/
def timestretchGrid (a b : ℚ) (variations : ℕ) : List ℚ :=
  gridTrim 1 variations (linspace a b (variations + 1))

/-- The grid-mode noise parameter set (main.py:599-610).  `np.logspace`
raises 10 to evenly spaced exponents; real powers of 10 are not rational, so
the power function is a parameter (`pow10`), applied to the evenly spaced
exponent grid exactly as in the source. -/
def noiseGrid (pow10 : ℚ → ℚ) (a b : ℚ) (variations : ℕ) : List ℚ :=
  gridTrim 1 variations ((linspace a b (variations + 1)).map pow10)

/-! ## Sampler lemmas -/

theorem setAdd_nodup {α : Type} [DecidableEq α] {s : List α} (x : α)
    (h : s.Nodup) : (setAdd x s).Nodup := by
  unfold setAdd
  split
  · exact h
  · next hx => simpa [List.nodup_append] using ⟨h, fun hmem => hx hmem⟩

theorem mem_setAdd {α : Type} [DecidableEq α] {s : List α} {x y : α}
    (h : y ∈ setAdd x s) : y = x ∨ y ∈ s := by
  unfold setAdd at h
  split at h
  · exact Or.inr h
  · rcases List.mem_append.mp h with h' | h'
    · exact Or.inr h'
    · exact Or.inl (List.mem_singleton.mp h')

theorem setAdd_length {α : Type} [DecidableEq α] (x : α) (s : List α) :
    s.length ≤ (setAdd x s).length ∧ (setAdd x s).length ≤ s.length + 1 := by
  unfold setAdd
  split <;> simp

/-- If the rejection loop exits without consuming the whole budget, the
candidate it returns is neither the identity nor a duplicate. -/
theorem sampleWhile_not_exhausted {α : Type} [DecidableEq α]
    (identity : α) (draw : ℕ → α) (gen : List α) :
    ∀ (fuel : ℕ) (x : α) (k : ℕ) (x' : α) (k' : ℕ),
      sampleWhile identity draw gen fuel x k = (x', false, k') →
      x' ≠ identity ∧ x' ∉ gen := by
  intro fuel
  induction fuel with
  | zero => intro x k x' k' h; simp [sampleWhile] at h
  | succ n ih =>
    intro x k x' k' h
    rw [sampleWhile] at h
    split at h
    · exact ih _ _ _ _ h
    · next hcond =>
      obtain ⟨hx, -, -⟩ := Prod.mk.injEq .. ▸ h
      push_neg at hcond
      exact hx ▸ hcond

/-- One slot neither destroys `Nodup` nor changes the length by more
than one; a slot with positive index never adds the identity value. -/
theorem sampleSlot_nodup {α : Type} [DecidableEq α] (identity : α)
    (draw : ℕ → α) (i : ℕ) (gen : List α) (k : ℕ) (h : gen.Nodup) :
    (sampleSlot identity draw i gen k).1.Nodup := by
  unfold sampleSlot
  split
  split
  · split
    · exact h
    · exact setAdd_nodup _ h
  · exact setAdd_nodup _ h

theorem sampleSlot_length {α : Type} [DecidableEq α] (identity : α)
    (draw : ℕ → α) (i : ℕ) (gen : List α) (k : ℕ) :
    gen.length ≤ (sampleSlot identity draw i gen k).1.length ∧
      (sampleSlot identity draw i gen k).1.length ≤ gen.length + 1 := by
  unfold sampleSlot
  split
  split
  · split
    · simp
    · exact setAdd_length _ _
  · exact setAdd_length _ _

theorem sampleSlot_identity_free {α : Type} [DecidableEq α] (identity : α)
    (draw : ℕ → α) (i : ℕ) (gen : List α) (k : ℕ) (hi : 0 < i)
    (h : identity ∉ gen) :
    identity ∉ (sampleSlot identity draw i gen k).1 := by
  unfold sampleSlot
  split
  next x exhausted kx heq =>
  split
  · simp only [if_pos hi]
    exact h
  · intro hmem
    rcases mem_setAdd hmem with h' | h'
    · exact (sampleWhile_not_exhausted identity draw gen 10 identity k x kx
        (by rw [heq]; next hex => simp [eq_false_of_ne_true hex])).1 h'.symm
    · exact h h'

theorem sampleSlots_nodup {α : Type} [DecidableEq α] (identity : α)
    (draw : ℕ → α) :
    ∀ (n i : ℕ) (gen : List α) (k : ℕ), gen.Nodup →
      (sampleSlots identity draw n i gen k).Nodup := by
  intro n
  induction n with
  | zero => intro i gen k h; exact h
  | succ m ih =>
    intro i gen k h
    exact ih _ _ _ (sampleSlot_nodup identity draw i gen k h)

theorem sampleSlots_length {α : Type} [DecidableEq α] (identity : α)
    (draw : ℕ → α) :
    ∀ (n i : ℕ) (gen : List α) (k : ℕ),
      gen.length ≤ (sampleSlots identity draw n i gen k).length ∧
        (sampleSlots identity draw n i gen k).length ≤ gen.length + n := by
  intro n
  induction n with
  | zero => intro i gen k; simp [sampleSlots]
  | succ m ih =>
    intro i gen k
    have h1 := sampleSlot_length identity draw i gen k
    have h2 := ih (i + 1) (sampleSlot identity draw i gen k).1
      (sampleSlot identity draw i gen k).2
    constructor
    · calc gen.length ≤ _ := h1.1
        _ ≤ _ := h2.1
    · calc (sampleSlots identity draw (m + 1) i gen k).length
          ≤ (sampleSlot identity draw i gen k).1.length + m := h2.2
        _ ≤ gen.length + 1 + m := by omega
        _ = gen.length + (m + 1) := by omega

theorem sampleSlots_identity_free {α : Type} [DecidableEq α] (identity : α)
    (draw : ℕ → α) :
    ∀ (n i : ℕ) (gen : List α) (k : ℕ), 0 < i → identity ∉ gen →
      identity ∉ sampleSlots identity draw n i gen k := by
  intro n
  induction n with
  | zero => intro i gen k _ h; exact h
  | succ m ih =>
    intro i gen k hi h
    exact ih _ _ _ (by omega)
      (sampleSlot_identity_free identity draw i gen k hi h)

/-! ## Grid trimming lemmas -/

theorem gridTrim_nodup {α : Type} [DecidableEq α] (identity : α)
    (variations : ℕ) (pts : List α) : (gridTrim identity variations pts).Nodup :=
  ((pts.nodup_dedup.filter _).sublist (List.take_sublist _ _))

theorem identity_notMem_gridTrim {α : Type} [DecidableEq α] (identity : α)
    (variations : ℕ) (pts : List α) :
    identity ∉ gridTrim identity variations pts := by
  intro hmem
  have hfil := (List.take_sublist _ _).subset hmem
  have := (List.mem_filter.mp hfil).2
  simp at this

theorem gridTrim_length {α : Type} [DecidableEq α] (identity : α)
    (variations : ℕ) (pts : List α) :
    (gridTrim identity variations pts).length =
      min variations ((pts.dedup.filter (fun x => x ≠ identity)).length) := by
  unfold gridTrim
  exact List.length_take _ _

/-! ## The time-stretch / noise randomized sampler as called in the source -/

/-- The randomized time-stretch factor set (main.py:275-298): identity `1.0`,
candidates `round(random.uniform(min, max), 1)`; `draw k` is the k-th value
returned by `random.uniform`.  The noise-intensity sampler (main.py:574-597)
has the identical shape. -/
def timestretchFactors (draw : ℕ → ℚ) (variations : ℕ) : List ℚ :=
  sampleRandomized 1 (fun k => round1 (draw k)) variations

/-- Claim C1 as stated: every sampled parameter set (randomized or grid) is
duplicate-free and never contains the identity value, including when the
first-slot fallback is accepted. -/
def claimC1 : Prop :=
  (∀ (draw : ℕ → ℚ) (v : ℕ),
      (timestretchFactors draw v).Nodup ∧ (1 : ℚ) ∉ timestretchFactors draw v) ∧
  ∀ (pts : List ℚ) (v : ℕ),
      (gridTrim 1 v pts).Nodup ∧ (1 : ℚ) ∉ gridTrim 1 v pts

/-- C1 (counterexample): the claim is false.  With bounds `min = max = 1.0`
every `uniform` draw is `1.0`; the first slot exhausts its 10 attempts, and
the fallback value drawn at main.py:294-296 is accepted unconditionally — it
is the identity value, which therefore ends up in the set. -/
theorem c1_claim_false : ¬ claimC1 := by
  intro h
  have h2 := (h.1 (fun _ => 1) 1).2
  apply h2
  show (1 : ℚ) ∈ timestretchFactors (fun _ => 1) 1
  norm_num [timestretchFactors, sampleRandomized, sampleSlots, sampleSlot,
    sampleWhile, setAdd, round1, round_eq]

/-- C1 (amended): the sampled set never contains duplicates; in grid mode it
never contains the identity value; in randomized mode the identity value can
only enter through the first-slot fallback draw (main.py:294-296), i.e. if
the identity is in the result then the first slot exhausted its budget and
its fresh fallback draw was the identity itself. -/
theorem c1_amended {α : Type} [DecidableEq α] (identity : α) (draw : ℕ → α)
    (v : ℕ) :
    (sampleRandomized identity draw v).Nodup ∧
      (identity ∈ sampleRandomized identity draw v →
        slot0Fallback identity draw = some identity) ∧
      ∀ pts : List α,
        (gridTrim identity v pts).Nodup ∧ identity ∉ gridTrim identity v pts := by
  refine ⟨sampleSlots_nodup identity draw v 0 [] 0 List.nodup_nil, ?_, ?_⟩
  · intro hmem
    cases v with
    | zero => simp [sampleRandomized, sampleSlots] at hmem
    | succ n =>
      unfold sampleRandomized at hmem
      rw [sampleSlots] at hmem
      have hgen : identity ∈ (sampleSlot identity draw 0 [] 0).1 := by
        by_contra hnot
        exact sampleSlots_identity_free identity draw n 1 _ _ (by omega) hnot hmem
      unfold sampleSlot at hgen
      unfold slot0Fallback
      rcases hw : sampleWhile identity draw [] 10 identity 0 with ⟨x, ex, kx⟩
      rw [hw] at hgen
      cases ex with
      | false =>
        have hval := sampleWhile_not_exhausted identity draw [] 10 identity 0 x kx hw
        simp [setAdd] at hgen
        exact absurd hgen.symm hval.1
      | true =>
        simp [setAdd] at hgen
        simp [hgen]
  · intro pts
    exact ⟨gridTrim_nodup identity v pts, identity_notMem_gridTrim identity v pts⟩

/-- C1 (witness): the amended theorem applied at a concrete input.  For the
additive pitch-shift-shaped sampler (identity `0`) with all draws `0` the
identity does enter the set, and the theorem pinpoints the first-slot
fallback as the only way in. -/
theorem c1_amended_witness :
    (sampleRandomized (0 : ℤ) (fun _ => 0) 1).Nodup ∧
      slot0Fallback (0 : ℤ) (fun _ => 0) = some 0 ∧
      (gridTrim (0 : ℤ) 1 [0, 1]).Nodup ∧ (0 : ℤ) ∉ gridTrim (0 : ℤ) 1 [0, 1] :=
  ⟨(c1_amended (0 : ℤ) (fun _ => 0) 1).1,
   (c1_amended (0 : ℤ) (fun _ => 0) 1).2.1 (by decide),
   ((c1_amended (0 : ℤ) (fun _ => 0) 1).2.2 [0, 1]).1,
   ((c1_amended (0 : ℤ) (fun _ => 0) 1).2.2 [0, 1]).2⟩

/-- Claim C2 as stated: for a randomized request with `variations = n ≥ 1`
over a non-degenerate range containing more than one valid value, the
result has size `n` or `n − 1`. -/
def claimC2 : Prop :=
  ∀ (draw : ℕ → ℚ) (lo hi : ℚ) (v : ℕ),
    1 ≤ v → lo < hi →
    (∀ k, lo ≤ draw k ∧ draw k ≤ hi) →
    (∃ q1 q2 : ℚ, q1 ≠ q2 ∧ q1 ≠ 1 ∧ q2 ≠ 1 ∧
      lo ≤ q1 ∧ q1 ≤ hi ∧ lo ≤ q2 ∧ q2 ≤ hi) →
    (timestretchFactors draw v).length = v ∨
      (timestretchFactors draw v).length = v - 1

/-- C2 (counterexample): the claim is false.  Over the non-degenerate range
`[1.1, 1.3]` with `variations = 3`, a draw stream that always returns `1.2`
fills slot 0, then exhausts slots 1 and 2 (each rejects the duplicate `1.2`
ten times and is skipped, main.py:292-293), leaving a set of size 1, which is
neither `3` nor `2`. -/
theorem c2_claim_false : ¬ claimC2 := by
  intro h
  have hlen : (timestretchFactors (fun _ => 12 / 10) 3).length = 1 := by
    norm_num [timestretchFactors, sampleRandomized, sampleSlots, sampleSlot,
      sampleWhile, setAdd, round1, round_eq]
  rcases h (fun _ => 12 / 10) (11 / 10) (13 / 10) 3 (by norm_num) (by norm_num)
      (fun k => by norm_num)
      ⟨11 / 10, 13 / 10, by norm_num, by norm_num, by norm_num, by norm_num,
        by norm_num, by norm_num, by norm_num⟩ with hc | hc <;>
    rw [hlen] at hc <;> exact absurd hc (by norm_num)

/-- C2 (amended): with `variations = n ≥ 1` the randomized sampler returns
between 1 and `n` values: the first slot always contributes exactly one value
(valid candidate or fallback), and every later exhausted slot is skipped, so
any size in `[1, n]` — not just `n` or `n − 1` — can occur; the result is
never empty. -/
theorem c2_amended {α : Type} [DecidableEq α] (identity : α) (draw : ℕ → α)
    (v : ℕ) (hv : 1 ≤ v) :
    1 ≤ (sampleRandomized identity draw v).length ∧
      (sampleRandomized identity draw v).length ≤ v := by
  obtain ⟨n, rfl⟩ : ∃ n, v = n + 1 := ⟨v - 1, by omega⟩
  unfold sampleRandomized
  rw [sampleSlots]
  have hslot : (sampleSlot identity draw 0 [] 0).1.length = 1 := by
    unfold sampleSlot
    split
    split
    · simp [setAdd]
    · simp [setAdd]
  have hb := sampleSlots_length identity draw n (0 + 1)
    (sampleSlot identity draw 0 [] 0).1 (sampleSlot identity draw 0 [] 0).2
  rw [hslot] at hb
  exact ⟨hb.1, by omega⟩

/-- C2 (witness): the amended bounds at a concrete input. -/
theorem c2_amended_witness :
    1 ≤ (sampleRandomized (0 : ℤ) (fun _ => 5) 2).length ∧
      (sampleRandomized (0 : ℤ) (fun _ => 5) 2).length ≤ 2 :=
  c2_amended (0 : ℤ) (fun _ => 5) 2 (by decide)

/-! ## Grid structure lemmas -/

theorem linspace_length (a b : ℚ) (n : ℕ) :
    (linspace a b (n + 2)).length = n + 2 := by
  unfold linspace
  rw [List.length_map, List.length_range]

theorem linspace_getD (a b : ℚ) (n i : ℕ) (hi : i < n + 2) :
    (linspace a b (n + 2)).getD i 0 = a + (b - a) * i / (n + 1) := by
  unfold linspace
  rw [List.getD_eq_getElem _ _
      (by rw [List.length_map, List.length_range]; exact hi),
    List.getElem_map, List.getElem_range]

/-- Claim C4 as stated (the refutable core, at the pitch-shift family): every
value the grid sampler returns is one of the `variations + 1` evenly spaced
points across `[min, max]` inclusive. -/
def claimC4 : Prop :=
  ∀ (a b : ℤ) (v : ℕ), 1 ≤ v →
    ∀ x ∈ pitchshiftGrid a b v, (x : ℚ) ∈ linspace (a : ℚ) (b : ℚ) (v + 1)

/-- C4 (counterexample): the claim is false.  For the pitch-shift family with
`min = 0`, `max = 5`, `variations = 2`, `np.linspace(0, 5, 3, dtype=int)`
truncates the evenly spaced points `[0, 2.5, 5]` to `[0, 2, 5]`
(main.py:364-367); after dropping the identity the result contains `2`, which
is not an evenly spaced point of `[0, 5]`. -/
theorem c4_claim_false : ¬ claimC4 := by
  intro h
  have hlin : linspace ((0 : ℤ) : ℚ) ((5 : ℤ) : ℚ) 3 = [0, 5 / 2, 5] := by
    norm_num [linspace, List.range_succ]
  have hint : intLinspace 0 5 3 = [0, 2, 5] := by
    rw [intLinspace, hlin]
    norm_num [ratTrunc]
  have h2 := h 0 5 2 (by norm_num) 2 (by rw [show pitchshiftGrid 0 5 2 =
    gridTrim 0 2 (intLinspace 0 5 3) from rfl, hint]; decide)
  rw [hlin] at h2
  norm_num at h2

/-- C4 (amended): in grid mode every family builds `variations + 1` points,
drops the identity value if present, and trims the set to at most
`variations` elements; the identity value never appears, the result is
duplicate-free, and its size is exactly
`min(variations, distinct grid points excluding identity)`.  The points are
evenly spaced across `[min, max]` inclusive only for time-stretch; the
pitch-shift points are the evenly spaced points truncated to integers
(`dtype=int`), and the noise points are `10` raised to evenly spaced
exponents (`np.logspace`), so those two families are not evenly spaced in
general. -/
theorem c4_amended (a b : ℚ) (c d : ℤ) (pow10 : ℚ → ℚ) (v : ℕ) (hv : 1 ≤ v) :
    ((1 : ℚ) ∉ timestretchGrid a b v ∧ (timestretchGrid a b v).Nodup ∧
      (timestretchGrid a b v).length =
        min v (((linspace a b (v + 1)).dedup.filter
          (fun x => x ≠ (1 : ℚ))).length)) ∧
    ((0 : ℤ) ∉ pitchshiftGrid c d v ∧ (pitchshiftGrid c d v).Nodup ∧
      (pitchshiftGrid c d v).length =
        min v (((intLinspace c d (v + 1)).dedup.filter
          (fun x => x ≠ (0 : ℤ))).length)) ∧
    ((1 : ℚ) ∉ noiseGrid pow10 a b v ∧ (noiseGrid pow10 a b v).Nodup) ∧
    ((linspace a b (v + 1)).length = v + 1 ∧
      (linspace a b (v + 1)).getD 0 0 = a ∧
      (linspace a b (v + 1)).getD v 0 = b ∧
      ∀ i, i < v →
        (linspace a b (v + 1)).getD (i + 1) 0 -
          (linspace a b (v + 1)).getD i 0 = (b - a) / v) := by
  obtain ⟨n, rfl⟩ : ∃ n, v = n + 1 := ⟨v - 1, by omega⟩
  have hnz : ((n : ℚ) + 1) ≠ 0 := by positivity
  refine ⟨⟨identity_notMem_gridTrim _ _ _, gridTrim_nodup _ _ _,
      gridTrim_length _ _ _⟩,
    ⟨identity_notMem_gridTrim _ _ _, gridTrim_nodup _ _ _,
      gridTrim_length _ _ _⟩,
    ⟨identity_notMem_gridTrim _ _ _, gridTrim_nodup _ _ _⟩,
    linspace_length a b n, ?_, ?_, ?_⟩
  · rw [linspace_getD a b n 0 (by omega)]
    norm_num
  · rw [linspace_getD a b n (n + 1) (by omega)]
    push_cast
    field_simp
  · intro i hi
    rw [linspace_getD a b n (i + 1) (by omega), linspace_getD a b n i (by omega)]
    push_cast
    field_simp
    ring

/-- C4 (witness): the amended theorem applied at a concrete input:
time-stretch grid over `[0, 2]` with one variation, pitch-shift over
`[0, 2]`, and the spacing of the evenly spaced points. -/
theorem c4_amended_witness :
    (1 : ℚ) ∉ timestretchGrid 0 2 1 ∧ (0 : ℤ) ∉ pitchshiftGrid 0 2 1 ∧
      (linspace (0 : ℚ) 2 2).getD 1 0 - (linspace (0 : ℚ) 2 2).getD 0 0 =
        (2 - 0) / 1 := by
  have h := c4_amended 0 2 0 2 (fun x => x) 1 (by decide)
  exact ⟨h.1.1, h.2.1.1, by
    have hs := h.2.2.2.2.2.2 0 (by decide)
    simpa using hs⟩

/-! ## Effect dispatcher: the pitch-shift dispatch unit (main.py:335-398)

The external capability `apply_pitch_shift` is a parameter
`applyPS : ℤ → Option String` returning the produced annotation-file path
(`none` models both a falsy return and a caught per-parameter exception,
main.py:389-398).  The second component of the result records the parameters
the capability was invoked with, in order. -/

/-- The pitch-shift branch of `process_effect` (main.py:335-398).  In
randomized mode the parameter set `generated_semitones` is sampled
(main.py:342-362) and then *never applied*: the application loop
(main.py:381-398) is nested inside the grid-mode `else` branch.  In grid mode
the loop applies the capability once per sampled value. -/
def pitchshiftBranch (applyPS : ℤ → Option String) (draw : ℕ → ℤ)
    (randomized : Bool) (variations : ℕ) (a b : ℤ) :
    List String × List ℤ :=
  if randomized then
    let _generated := sampleRandomized 0 draw variations
    ([], [])
  else
    let sems := pitchshiftGrid a b variations
    (sems.filterMap applyPS, sems)

/-- C3: at the failing input (pitch-shift, randomized mode, one variation,
all `randint` draws returning `2`), the sampled parameter set is the
non-empty `{2}`, yet the dispatch unit produces no annotation file and never
invokes the external capability — contradicting the claim that every sampled
value is applied exactly once.  In grid mode (same bounds) the loop does run:
each sampled value is passed to the capability exactly once, in order. -/
theorem c3_pitchshift_randomized_never_applied :
    sampleRandomized (0 : ℤ) (fun _ => 2) 1 = [2] ∧
      pitchshiftBranch (fun _ => some "out.ann") (fun _ => 2) true 1 (-2) 2 =
        ([], []) ∧
      (pitchshiftBranch (fun _ => some "out.ann") (fun _ => 2) false 1 (-2) 2).2 =
        pitchshiftGrid (-2) 2 1 := by
  exact ⟨by decide, rfl, rfl⟩

/-! ## Merge subsystem: candidate pool and selection (main.py:522-565) -/

/-- The merge candidate pool (main.py:523-527): the input-directory audio
files `x` with `os.path.basename(standardized_audio) not in x` — a Python
*substring* test (contiguous sublist of characters), not an inequality, so
any file whose name merely contains the current file's name is excluded
too. -/
def targetAudioFiles (files : List String) (currentName : String) :
    List String :=
  files.filter (fun x => ! decide (currentName.data <:+: x.data))

/-- The selection loop (main.py:529-535):
`while len(audios4merge) < merge_num: audios4merge.append(target.pop(random.randrange(len(target))))`.
`rng k` is the k-th value returned by `random.randrange`, reduced modulo the
current pool size. -/
def selectMerge (rng : ℕ → ℕ) : ℕ → List String → ℕ → List String
  | 0, _, _ => []
  | n + 1, pool, k =>
    let i := rng k % pool.length
    pool.getD i "" :: selectMerge rng n (pool.eraseIdx i) (k + 1)

/-- The merge branch of `process_effect` (main.py:522-565): when the pool has
at least `merge_num` files, select that many and attempt the merge
(`some` selection); otherwise skip with a logged error and produce nothing
(`none`, main.py:562-565). -/
def mergeBranch (rng : ℕ → ℕ) (files : List String) (currentName : String)
    (mergeNum : ℕ) : Option (List String) :=
  let pool := targetAudioFiles files currentName
  if mergeNum ≤ pool.length then some (selectMerge rng mergeNum pool 0)
  else none

/-- Claim C5 as stated: the candidate pool is the input-directory audio files
minus the current file; the merge is skipped exactly when that pool has fewer
than `merge_num` files. -/
def claimC5 : Prop :=
  ∀ (rng : ℕ → ℕ) (files : List String) (currentName : String)
    (mergeNum : ℕ),
    ((files.erase currentName).length < mergeNum →
      mergeBranch rng files currentName mergeNum = none) ∧
    (mergeNum ≤ (files.erase currentName).length →
      (mergeBranch rng files currentName mergeNum).isSome = true)

/-- C5 (counterexample): the claim is false.  With directory
`["a.wav", "xa.wav", "b.wav"]`, current file `a.wav` and `merge_num = 2`, the
directory minus the current file has 2 files, so the claim requires the merge
to be attempted; but the substring test at main.py:526 also excludes
`xa.wav` (it contains `a.wav`), the code's pool is just `["b.wav"]`, and the
merge is skipped. -/
theorem c5_claim_false : ¬ claimC5 := by
  intro h
  have h2 := (h (fun _ => 0) ["a.wav", "xa.wav", "b.wav"] "a.wav" 2).2
    (by decide)
  rw [show mergeBranch (fun _ => 0) ["a.wav", "xa.wav", "b.wav"] "a.wav" 2 =
    none by decide] at h2
  simp at h2

theorem selectMerge_spec (rng : ℕ → ℕ) :
    ∀ (n : ℕ) (pool : List String) (k : ℕ), pool.Nodup → n ≤ pool.length →
      (selectMerge rng n pool k).length = n ∧
        (selectMerge rng n pool k).Nodup ∧
        ∀ x ∈ selectMerge rng n pool k, x ∈ pool := by
  intro n
  induction n with
  | zero => intro pool k _ _; simp [selectMerge]
  | succ m ih =>
    intro pool k hnd hlen
    have hip : rng k % pool.length < pool.length :=
      Nat.mod_lt _ (by omega)
    have hlen' : (pool.eraseIdx (rng k % pool.length)).length + 1 =
        pool.length := List.length_eraseIdx_add_one hip
    have herase := List.erase_getElem (l := pool) hip
    have hnd' : (pool.eraseIdx (rng k % pool.length)).Nodup :=
      (herase.nodup_iff).mp (hnd.erase _)
    obtain ⟨ihl, ihn, ihm⟩ :=
      ih (pool.eraseIdx (rng k % pool.length)) (k + 1) hnd' (by omega)
    have hget : pool.getD (rng k % pool.length) "" =
        pool[rng k % pool.length] := List.getD_eq_getElem pool "" hip
    refine ⟨by simp [selectMerge, ihl], ?_, ?_⟩
    · rw [selectMerge]
      refine List.nodup_cons.mpr ⟨?_, ihn⟩
      intro hmem
      have hx := ihm _ hmem
      rw [hget] at hx
      have : pool[rng k % pool.length] ∈ pool.erase pool[rng k % pool.length] :=
        herase.symm.subset hx
      exact absurd ((hnd.mem_erase_iff).mp this).1 (by simp)
    · intro x hx
      rw [selectMerge] at hx
      rcases List.mem_cons.mp hx with h' | h'
      · rw [h', hget]
        exact List.getElem_mem hip
      · exact List.mem_of_mem_erase (herase.symm.subset (ihm _ h'))

/-- C5 (amended): the candidate pool is the input-directory audio files whose
name does not contain the current file's name as a substring.  If that pool
has fewer than `merge_num` files, the merge family is skipped (producing
nothing); otherwise exactly `merge_num` distinct files are selected at random
without replacement from the pool and the merge is attempted. -/
theorem c5_amended (rng : ℕ → ℕ) (files : List String) (currentName : String)
    (mergeNum : ℕ) (hnd : (targetAudioFiles files currentName).Nodup) :
    ((targetAudioFiles files currentName).length < mergeNum →
      mergeBranch rng files currentName mergeNum = none) ∧
    (mergeNum ≤ (targetAudioFiles files currentName).length →
      ∃ sel, mergeBranch rng files currentName mergeNum = some sel ∧
        sel.length = mergeNum ∧ sel.Nodup ∧
        ∀ x ∈ sel, x ∈ targetAudioFiles files currentName) := by
  constructor
  · intro hlt
    unfold mergeBranch
    rw [if_neg (by omega)]
  · intro hle
    obtain ⟨h1, h2, h3⟩ := selectMerge_spec rng mergeNum
      (targetAudioFiles files currentName) 0 hnd hle
    refine ⟨selectMerge rng mergeNum (targetAudioFiles files currentName) 0,
      ?_, h1, h2, h3⟩
    unfold mergeBranch
    rw [if_pos hle]

/-- C5 (witness): the amended theorem applied to the counterexample
directory: the pool is `["b.wav"]`, so `merge_num = 2` skips, while
`merge_num = 1` selects one file from the pool. -/
theorem c5_amended_witness :
    (mergeBranch (fun _ => 0) ["a.wav", "xa.wav", "b.wav"] "a.wav" 2 = none) ∧
      (mergeBranch (fun _ => 0) ["a.wav", "xa.wav", "b.wav"] "a.wav" 1).isSome =
        true := by
  refine ⟨(c5_amended (fun _ => 0) ["a.wav", "xa.wav", "b.wav"] "a.wav" 2
      (by decide)).1 (by decide), ?_⟩
  obtain ⟨sel, hsel, -, -, -⟩ :=
    (c5_amended (fun _ => 0) ["a.wav", "xa.wav", "b.wav"] "a.wav" 1
      (by decide)).2 (by decide)
  rw [hsel]
  rfl

/-! ## Merge subsystem: `merge_audios` (merge_audio.py:9-48)

Signals are lists of samples (`List ℚ`) paired with their sample rate.
`librosa.resample` is an external DSP capability and is a parameter
`resample : List ℚ → ℕ → ℕ → List ℚ` (signal, original rate, target rate).
Annotation file contents are `String`s, listed in selection order with the
current file's annotation last, exactly as `ann_files` is built at
merge_audio.py:31-34. -/

/-- `np.pad(x, (0, maxLen - len(x)))` (merge_audio.py:26): right-pad with
zeros. -/
def padTo (n : ℕ) (x : List ℚ) : List ℚ := x ++ List.replicate (n - x.length) 0

/-- Elementwise addition of two equal-length signals (one step of
`np.sum(..., axis=0)`, merge_audio.py:28). -/
def addSignals (x y : List ℚ) : List ℚ := List.zipWith (fun u v => u + v) x y

/-- `[librosa.resample(x[0], orig_sr=x[1], target_sr=target_sr) for x in audios]`
(merge_audio.py:21-23). -/
def resampleAll (resample : List ℚ → ℕ → ℕ → List ℚ)
    (audios : List (List ℚ × ℕ)) (targetSr : ℕ) : List (List ℚ) :=
  audios.map (fun x => resample x.1 x.2 targetSr)

/-- `max(len(x) for x in audios_resampled)` (merge_audio.py:24). -/
def maxLength (ls : List (List ℚ)) : ℕ := (ls.map List.length).foldr max 0

/-- `merge_audios` (merge_audio.py:9-48): load the selected files plus the
current file (selected first, current last), resample all to the target
rate, zero-pad to the maximum length, sum sample-wise, and concatenate the
annotation contents in the same order.  Returns the merged signal and the
merged annotation text. -/
def merge_audios (resample : List ℚ → ℕ → ℕ → List ℚ)
    (audios4merge : List (List ℚ × ℕ)) (standardized : List ℚ × ℕ)
    (anns4merge : List String) (tempAnn : String) (targetSr : ℕ) :
    List ℚ × String :=
  let audiosResampled := resampleAll resample (audios4merge ++ [standardized])
    targetSr
  let maxLen := maxLength audiosResampled
  let padded := audiosResampled.map (padTo maxLen)
  let merged := padded.foldl addSignals (List.replicate maxLen 0)
  let annMerged := (anns4merge ++ [tempAnn]).foldl
    (fun acc s => acc ++ s) ""
  (merged, annMerged)

theorem padTo_length (n : ℕ) (x : List ℚ) (h : x.length ≤ n) :
    (padTo n x).length = n := by
  unfold padTo
  rw [List.length_append, List.length_replicate]
  omega

theorem padTo_getD (n : ℕ) (x : List ℚ) (i : ℕ) :
    (padTo n x).getD i 0 = x.getD i 0 := by
  unfold padTo
  rcases lt_or_le i x.length with h | h
  · exact List.getD_append x _ 0 i h
  · rw [List.getD_eq_default _ _ h]
    rcases lt_or_le i (x.length + (n - x.length)) with h2 | h2
    · rw [List.getD_eq_getElem _ _ (by rw [List.length_append, List.length_replicate]; omega)]
      rw [List.getElem_append_right (by omega)]
      simp
    · rw [List.getD_eq_default]
      rw [List.length_append, List.length_replicate]
      omega

theorem le_maxLength (ls : List (List ℚ)) (l : List ℚ) (h : l ∈ ls) :
    l.length ≤ maxLength ls := by
  induction ls with
  | nil => cases h
  | cons x xs ih =>
    rcases List.mem_cons.mp h with h' | h'
    · subst h'
      exact le_max_left _ _
    · exact le_trans (ih h') (le_max_right _ _)

theorem addSignals_length (x y : List ℚ) :
    (addSignals x y).length = min x.length y.length :=
  List.length_zipWith _ x y

theorem addSignals_getD (x y : List ℚ) (i : ℕ) (hx : i < x.length)
    (hy : i < y.length) :
    (addSignals x y).getD i 0 = x.getD i 0 + y.getD i 0 := by
  unfold addSignals
  rw [List.getD_eq_getElem _ _ (by rw [List.length_zipWith]; omega),
    List.getD_eq_getElem _ _ hx, List.getD_eq_getElem _ _ hy]
  exact List.getElem_zipWith

theorem foldl_addSignals_length (n : ℕ) :
    ∀ (ls : List (List ℚ)) (acc : List ℚ), acc.length = n →
      (∀ l ∈ ls, l.length = n) → (ls.foldl addSignals acc).length = n := by
  intro ls
  induction ls with
  | nil => intro acc ha _; exact ha
  | cons x xs ih =>
    intro acc ha hl
    rw [List.foldl_cons]
    exact ih _ (by rw [addSignals_length, ha, hl x (List.mem_cons_self x xs)]; omega)
      (fun l hm => hl l (List.mem_cons_of_mem x hm))

theorem foldl_addSignals_getD (n : ℕ) :
    ∀ (ls : List (List ℚ)) (acc : List ℚ), acc.length = n →
      (∀ l ∈ ls, l.length = n) → ∀ i, i < n →
      (ls.foldl addSignals acc).getD i 0 =
        acc.getD i 0 + (ls.map (fun l => l.getD i 0)).sum := by
  intro ls
  induction ls with
  | nil => intro acc _ _ i _; simp
  | cons x xs ih =>
    intro acc ha hl i hi
    rw [List.foldl_cons,
      ih (addSignals acc x)
        (by rw [addSignals_length, ha, hl x (List.mem_cons_self x xs)]; omega)
        (fun l hm => hl l (List.mem_cons_of_mem x hm)) i hi,
      addSignals_getD acc x i (by omega)
        (by rw [hl x (List.mem_cons_self x xs)]; omega)]
    simp [add_assoc]

/-- C6: `merge_audios` resamples every selected file and the current file to
the common target rate, zero-pads all resampled signals to the maximum length
among them, and sums them sample-wise: the merged waveform's length equals
that maximum and each sample is the sum of the padded signals at that index;
the combined annotation is the concatenation of each selected file's
annotation followed by the current file's annotation, in selection order. -/
theorem merge_audios_spec (resample : List ℚ → ℕ → ℕ → List ℚ)
    (audios4merge : List (List ℚ × ℕ)) (standardized : List ℚ × ℕ)
    (anns4merge : List String) (tempAnn : String) (targetSr : ℕ) :
    (merge_audios resample audios4merge standardized anns4merge tempAnn
        targetSr).1.length =
      maxLength (resampleAll resample (audios4merge ++ [standardized])
        targetSr) ∧
    (∀ i, i < maxLength (resampleAll resample (audios4merge ++ [standardized])
        targetSr) →
      (merge_audios resample audios4merge standardized anns4merge tempAnn
          targetSr).1.getD i 0 =
        ((resampleAll resample (audios4merge ++ [standardized])
          targetSr).map (fun l => l.getD i 0)).sum) ∧
    (merge_audios resample audios4merge standardized anns4merge tempAnn
        targetSr).2 = String.join (anns4merge ++ [tempAnn]) := by
  have hrow : ∀ l ∈ (resampleAll resample (audios4merge ++ [standardized])
      targetSr).map (padTo (maxLength (resampleAll resample
        (audios4merge ++ [standardized]) targetSr))),
      l.length = maxLength (resampleAll resample
        (audios4merge ++ [standardized]) targetSr) := by
    intro l hl
    obtain ⟨r, hr, rfl⟩ := List.mem_map.mp hl
    exact padTo_length _ _ (le_maxLength _ _ hr)
  refine ⟨?_, ?_, ?_⟩
  · exact foldl_addSignals_length _ _ _ (List.length_replicate _ _) hrow
  · intro i hi
    show ((((resampleAll resample (audios4merge ++ [standardized])
        targetSr).map (padTo _)).foldl addSignals
          (List.replicate _ 0)).getD i 0) = _
    rw [foldl_addSignals_getD _ _ _ (List.length_replicate _ _) hrow i hi,
      List.getD_eq_getElem _ _ (by rw [List.length_replicate]; exact hi),
      List.getElem_replicate, List.map_map]
    have hmap : ((resampleAll resample (audios4merge ++ [standardized])
        targetSr).map ((fun l => l.getD i 0) ∘ (padTo (maxLength
          (resampleAll resample (audios4merge ++ [standardized])
            targetSr))))) =
        ((resampleAll resample (audios4merge ++ [standardized])
          targetSr).map (fun l => l.getD i 0)) :=
      List.map_congr_left (fun l _ => padTo_getD _ l i)
    rw [hmap, zero_add]
  · show (anns4merge ++ [tempAnn]).foldl (fun acc s => acc ++ s) "" = _
    rfl

/-- C6 (witness): the theorem applied at a concrete input (identity
resampler, one selected file `[1, 2]` with annotation `"a"`, current file
`[3]` with annotation `"b"`). -/
theorem merge_audios_spec_witness :
    (merge_audios (fun x _ _ => x) [([1, 2], 44100)] ([3], 44100) ["a"] "b"
        44100).1.length =
      maxLength (resampleAll (fun x _ _ => x)
        ([([1, 2], 44100)] ++ [([3], 44100)]) 44100) ∧
    (merge_audios (fun x _ _ => x) [([1, 2], 44100)] ([3], 44100) ["a"] "b"
        44100).1.getD 0 0 =
      ((resampleAll (fun x _ _ => x) ([([1, 2], 44100)] ++ [([3], 44100)])
        44100).map (fun l => l.getD 0 0)).sum ∧
    (merge_audios (fun x _ _ => x) [([1, 2], 44100)] ([3], 44100) ["a"] "b"
        44100).2 = String.join (["a"] ++ ["b"]) := by
  have h := merge_audios_spec (fun x _ _ => x) [([1, 2], 44100)] ([3], 44100)
    ["a"] "b" 44100
  exact ⟨h.1, h.2.1 0 (by decide), h.2.2⟩

/-! ## Parallel executor and the `process_effect` unit boundary
(main.py:247, main.py:632-636, main.py:709-760)

The body of a dispatch unit either returns its list of created
annotation-file paths or raises; `process_effect` wraps the whole dispatch in
`try/except` and returns `[]` on any exception (main.py:632-636).  The
executor (sequential or pool-based, main.py:720-760) collects each family's
list in submission order and concatenates. -/

/-- The seven effect families, in submission order (main.py:709-717). -/
def effect_types : List String :=
  ["pauses", "timestretch", "pitchshift", "reverb", "chorus", "merge",
    "noise"]

/-- The unit boundary of `process_effect` (main.py:247/632-636): the dispatch
body either produces the family's annotation files (`Except.ok`) or raises
(`Except.error`, carrying the message that gets logged); the handler returns
the empty list. -/
def process_effect_result (body : Except String (List String)) :
    List String :=
  match body with
  | Except.ok files => files
  | Except.error _ => []

/-- The executor's fan-in (main.py:743-745 parallel, main.py:749-760
sequential): one body per family, results concatenated in submission
order. -/
def process_files_results (bodies : List (Except String (List String))) :
    List String :=
  (bodies.map process_effect_result).flatten

/-- C8: an unhandled error inside a family's dispatch unit is caught at the
unit boundary and that family yields the empty list; the executor never
propagates a family-level failure — the run's result is simply the
concatenation of the other families' results, in submission order. -/
theorem process_effect_error_isolated :
    (∀ e : String, process_effect_result (Except.error e) = []) ∧
      (∀ files : List String, process_effect_result (Except.ok files) = files) ∧
      ∀ (pre post : List (Except String (List String))) (e : String),
        process_files_results (pre ++ Except.error e :: post) =
          process_files_results (pre ++ post) := by
  refine ⟨fun e => rfl, fun files => rfl, fun pre post e => ?_⟩
  simp [process_files_results, process_effect_result]

/-! ## Naming scheme (main.py:183-217) and the chorus branch suffix
(main.py:498-503) -/

/-- `string.ascii_lowercase`. -/
def lowercaseChars : List Char :=
  ['a', 'b', 'c', 'd', 'e', 'f', 'g', 'h', 'i', 'j', 'k', 'l', 'm', 'n',
    'o', 'p', 'q', 'r', 's', 't', 'u', 'v', 'w', 'x', 'y', 'z']

/-- `random_word` (main.py:183-195): empty for non-positive lengths,
otherwise one uniformly chosen lowercase letter per position
(`random.choice(string.ascii_lowercase)`, modelled by indexing the 26
letters with `rng k % 26`).  The Python `int` argument is modelled as `ℤ`;
the function is total (never raises). -/
def random_word (rng : ℕ → ℕ) (length : ℤ) : String :=
  if length ≤ 0 then ""
  else
    String.mk ((List.range length.toNat).map
      (fun k => lowercaseChars.getD (rng k % 26) 'a'))

/-- `generate_output_filename` (main.py:198-217).  `measure` is the
parameter value as rendered by the Python f-string; an empty
`random_suffix` (falsy) omits the suffix segment entirely. -/
def generate_output_filename (base_name effect_name measure random_suffix
    extension : String) : String :=
  if random_suffix = "" then
    base_name ++ "_" ++ effect_name ++ "_" ++ measure ++ extension
  else
    base_name ++ "_" ++ effect_name ++ "_" ++ measure ++ "_" ++
      random_suffix ++ extension

/-- The output filename computed by the gain/chorus branch
(main.py:498-503): `random_suffix = random_word(5)` unconditionally — the
`config.enable_random_suffix` flag is ignored in this branch. -/
def chorusOutputFilename (rng : ℕ → ℕ) (_enableRandomSuffix : Bool)
    (base gainStr ext : String) : String :=
  let random_suffix := random_word rng 5
  generate_output_filename base "gain_chorus" gainStr random_suffix ext

/-- The output filename computed by the time-stretch branch
(main.py:313-318): `random_suffix = random_word(5) if
config.enable_random_suffix else ''`, as in every branch except
gain/chorus. -/
def timestretchOutputFilename (rng : ℕ → ℕ) (enableRandomSuffix : Bool)
    (base measureStr ext : String) : String :=
  let random_suffix := if enableRandomSuffix then random_word rng 5 else ""
  generate_output_filename base "timestretch" measureStr random_suffix ext

/-- C9: at the failing input (`enable_random_suffix = False`, gain/chorus
family), the chorus branch still appends a fixed-length 5-letter lowercase
suffix, so its filenames are not deterministic across runs; the time-stretch
branch with the same configuration omits the suffix as the claim requires. -/
theorem c9_chorus_ignores_suffix_flag :
    chorusOutputFilename (fun _ => 0) false "song" "3" ".wav" =
        "song_gain_chorus_3_aaaaa.wav" ∧
      timestretchOutputFilename (fun _ => 0) false "song" "1.2" ".wav" =
        "song_timestretch_1.2.wav" ∧
      (random_word (fun _ => 0) 5).length = 5 := by
  refine ⟨?_, ?_, ?_⟩ <;> decide

/-- C10: `random_word(length)` returns the empty string when `length ≤ 0`,
and otherwise a string of exactly `length` characters, each a lowercase
ASCII letter; it is a total function (never raises). -/
theorem random_word_spec (rng : ℕ → ℕ) (length : ℤ) :
    (length ≤ 0 → random_word rng length = "") ∧
      (0 < length →
        (random_word rng length).length = length.toNat ∧
          ∀ c ∈ (random_word rng length).data, c ∈ lowercaseChars) := by
  constructor
  · intro h
    unfold random_word
    rw [if_pos h]
  · intro h
    unfold random_word
    rw [if_neg (by omega)]
    constructor
    · show ((List.range length.toNat).map
        (fun k => lowercaseChars.getD (rng k % 26) 'a')).length = length.toNat
      rw [List.length_map, List.length_range]
    · intro c hc
      obtain ⟨k, -, rfl⟩ := List.mem_map.mp hc
      rcases lt_or_le (rng k % 26) lowercaseChars.length with h' | h'
      · rw [List.getD_eq_getElem _ _ h']
        exact List.getElem_mem h'
      · rw [List.getD_eq_default _ _ h']
        decide

/-- C10 (witness): `random_word` at length `-1` (empty) and length `3`
(three characters). -/
theorem random_word_spec_witness :
    random_word (fun _ => 0) (-1) = "" ∧
      (random_word (fun _ => 0) 3).length = (3 : ℤ).toNat :=
  ⟨(random_word_spec (fun _ => 0) (-1)).1 (by decide),
   ((random_word_spec (fun _ => 0) 3).2 (by decide)).1⟩

/-! ## Annotation codec (decode: `ann_to_midi`, main.py:98-157;
encode: `midi_to_ann`, main.py:78-85)

Annotation text is modelled at the character level (`List Char`).  A note
event carries onset/offset (Python floats, modelled as `ℚ`) and
pitch/velocity (Python ints, `ℤ`).  The decoder mirrors main.py:121-146:
strip the line, split on tabs, require exactly four fields, parse
`float/float/int/int`, and skip the line on any failure.  The numeric
parsers cover the fixed-point grammar `[sign] digits [. digits]` (the
subset of Python's `float()`/`int()` grammar that the encoder emits and
annotation files use); the encoder mirrors main.py:85:
`f"{onset:.6f}\t{offset:.6f}\t{pitch}\t{velocity}\n"`. -/

/-- One note event: onset, offset, pitch, velocity (main.py:80-84). -/
structure AnnNote where
  onset : ℚ
  offset : ℚ
  pitch : ℤ
  velocity : ℤ
deriving DecidableEq

/-- The numeric value of a decimal digit character, if it is one. -/
def charDigit (c : Char) : Option ℕ :=
  if '0' ≤ c ∧ c ≤ '9' then some (c.toNat - '0'.toNat) else none

/-- The decimal digit character for `d < 10`. -/
def digitChar (d : ℕ) : Char := Char.ofNat (48 + d)

/-- Fold decimal digit characters into a number; `none` on a non-digit. -/
def parseDigitsAux (acc : ℕ) : List Char → Option ℕ
  | [] => some acc
  | c :: cs =>
    match charDigit c with
    | some d => parseDigitsAux (acc * 10 + d) cs
    | none => none

/-- A non-empty all-digit run, as a number. -/
def parseDigits (cs : List Char) : Option ℕ :=
  if cs.isEmpty then none else parseDigitsAux 0 cs

/-- Python `int(s)` on the grammar `[sign] digits` (main.py:135-136). -/
def parseIntChars (cs : List Char) : Option ℤ :=
  match cs with
  | [] => none
  | c :: rest =>
    if c = '-' then (parseDigits rest).map (fun n : ℕ => -(n : ℤ))
    else if c = '+' then (parseDigits rest).map (fun n : ℕ => (n : ℤ))
    else (parseDigits cs).map (fun n : ℕ => (n : ℤ))

/-- The unsigned fixed-point grammar `digits [. digits]`: the integer part
is everything before the first dot, the fractional part everything after
it. -/
def parseUnsignedFixed (cs : List Char) : Option ℚ :=
  match cs.dropWhile (fun c => !(c == '.')) with
  | [] => (parseDigits (cs.takeWhile (fun c => !(c == '.')))).map
      (fun n : ℕ => (n : ℚ))
  | _ :: fracs =>
    match parseDigits (cs.takeWhile (fun c => !(c == '.'))),
        parseDigits fracs with
    | some n, some f => some ((n : ℚ) + (f : ℚ) / (10 : ℚ) ^ fracs.length)
    | _, _ => none

/-- Python `float(s)` on the grammar `[sign] digits [. digits]`
(main.py:133-134). -/
def parseFloatChars (cs : List Char) : Option ℚ :=
  match cs with
  | [] => none
  | c :: rest =>
    if c = '-' then (parseUnsignedFixed rest).map (fun q => -q)
    else if c = '+' then parseUnsignedFixed rest
    else parseUnsignedFixed cs

/-- Little-endian decimal digits of `n`, with structural fuel (`fuel ≥ n`
suffices). -/
def natDigitsRev : ℕ → ℕ → List ℕ
  | 0, _ => []
  | _ + 1, 0 => []
  | fuel + 1, n + 1 => ((n + 1) % 10) :: natDigitsRev fuel ((n + 1) / 10)

/-- The number a little-endian digit list denotes. -/
def digitsVal (L : List ℕ) : ℕ := L.foldr (fun d a => d + 10 * a) 0

/-- Python `str(n)` for a natural number. -/
def natToChars (n : ℕ) : List Char :=
  if n = 0 then ['0'] else ((natDigitsRev n n).map digitChar).reverse

/-- Python `str(z)` for an integer (as in `f"{pitch}"`, main.py:85). -/
def intToChars (z : ℤ) : List Char :=
  if z < 0 then '-' :: natToChars z.natAbs else natToChars z.toNat

/-- Left-pad a digit run with zeros to width 6 (the fractional part of the
`%.6f` format). -/
def padSix (cs : List Char) : List Char :=
  List.replicate (6 - cs.length) '0' ++ cs

/-- Python `f"{q:.6f}"`: sign, integer part, dot, exactly six fractional
digits, the value rounded to 6 decimal places (modulo the tie-breaking
rule, cf. `round1`). -/
def fmtFix6 (q : ℚ) : List Char :=
  let r : ℕ := (round (|q| * 1000000)).toNat
  (if q < 0 then ['-'] else []) ++ natToChars (r / 1000000) ++
    '.' :: padSix (natToChars (r % 1000000))

/-- The rational value `f"{q:.6f}"` denotes: `q` rounded to 6 decimal
places (sign handled as Python does, from the unrounded value). -/
def fmtVal (q : ℚ) : ℚ :=
  (if q < 0 then -1 else 1) * ((round (|q| * 1000000) : ℤ) : ℚ) / 1000000

/-- Python's `str.strip()` whitespace test (space, tab, newline, carriage
return, vertical tab, form feed). -/
def isPySpace (c : Char) : Bool :=
  c == ' ' || c == '\t' || c == '\n' || c == '\r' || c == '\x0b' ||
    c == '\x0c'

/-- Python `line.strip()` (main.py:123). -/
def pyStrip (cs : List Char) : List Char :=
  ((cs.dropWhile isPySpace).reverse.dropWhile isPySpace).reverse

/-- Python `s.split("\t")` (main.py:123). -/
def splitTab : List Char → List (List Char)
  | [] => [[]]
  | c :: cs =>
    if c = '\t' then [] :: splitTab cs
    else
      match splitTab cs with
      | [] => [[c]]
      | f :: rest => (c :: f) :: rest

/-- Decode one annotation line (main.py:121-146): strip, split on tabs,
require exactly 4 fields, parse `float/float/int/int`; `none` (the line is
skipped with a warning) on wrong field count or unparsable fields. -/
def parseAnnLine (line : List Char) : Option AnnNote :=
  match splitTab (pyStrip line) with
  | [o, f, p, v] =>
    match parseFloatChars o, parseFloatChars f, parseIntChars p,
        parseIntChars v with
    | some onset, some offset, some pitch, some velocity =>
      some ⟨onset, offset, pitch, velocity⟩
    | _, _, _, _ => none
  | _ => none

/-- The note sequence `ann_to_midi` (main.py:98-157) decodes from an
annotation file's lines: malformed lines are skipped, well-formed lines
become notes in order. -/
def ann_to_midi_notes (lines : List (List Char)) : List AnnNote :=
  lines.filterMap parseAnnLine

/-- One encoded line of `midi_to_ann` (main.py:85):
`f"{onset:.6f}\t{offset:.6f}\t{pitch}\t{velocity}\n"`. -/
def noteToLine (n : AnnNote) : List Char :=
  fmtFix6 n.onset ++ '\t' :: fmtFix6 n.offset ++ '\t' ::
    intToChars n.pitch ++ '\t' :: intToChars n.velocity ++ ['\n']

/-- The annotation lines `midi_to_ann` (main.py:78-85) writes for a note
sequence. -/
def midi_to_ann_lines (notes : List AnnNote) : List (List Char) :=
  notes.map noteToLine

/-- A note with onset and offset replaced by their 6-decimal formatted
values — what one round trip through the codec preserves exactly. -/
def normNote (n : AnnNote) : AnnNote :=
  { n with onset := fmtVal n.onset, offset := fmtVal n.offset }

/-! ## Codec lemmas: digits and decimal printing/parsing -/

theorem charDigit_digitChar (d : ℕ) (hd : d < 10) :
    charDigit (digitChar d) = some d := by
  interval_cases d <;> rfl

theorem digitChar_bounds (d : ℕ) (hd : d < 10) :
    digitChar d ≠ '.' ∧ digitChar d ≠ '\t' ∧ digitChar d ≠ '-' ∧
      digitChar d ≠ '+' ∧ isPySpace (digitChar d) = false := by
  interval_cases d <;> exact ⟨by decide, by decide, by decide, by decide, rfl⟩

theorem natDigitsRev_lt : ∀ (fuel n d : ℕ), d ∈ natDigitsRev fuel n → d < 10 := by
  intro fuel
  induction fuel with
  | zero => intro n d h; simp [natDigitsRev] at h
  | succ m ih =>
    intro n d h
    match n with
    | 0 => simp [natDigitsRev] at h
    | k + 1 =>
      rw [natDigitsRev] at h
      rcases List.mem_cons.mp h with h' | h'
      · subst h'; exact Nat.mod_lt _ (by omega)
      · exact ih _ _ h'

theorem natDigitsRev_val : ∀ (fuel n : ℕ), n ≤ fuel →
    digitsVal (natDigitsRev fuel n) = n := by
  intro fuel
  induction fuel with
  | zero => intro n h; interval_cases n; rfl
  | succ m ih =>
    intro n h
    match n with
    | 0 => rfl
    | k + 1 =>
      rw [natDigitsRev]
      show (k + 1) % 10 + 10 * digitsVal (natDigitsRev m ((k + 1) / 10)) = k + 1
      have hdiv : (k + 1) / 10 ≤ m := by
        have := Nat.div_lt_self (Nat.succ_pos k) (by omega : 1 < 10)
        omega
      rw [ih _ hdiv]
      omega

theorem natDigitsRev_length_le : ∀ (fuel n k : ℕ), n < 10 ^ k →
    (natDigitsRev fuel n).length ≤ k := by
  intro fuel
  induction fuel with
  | zero => intro n k _; simp [natDigitsRev]
  | succ m ih =>
    intro n k hn
    match n with
    | 0 => simp [natDigitsRev]
    | j + 1 =>
      match k with
      | 0 =>
        rw [pow_zero] at hn
        omega
      | i + 1 =>
        rw [natDigitsRev]
        show (natDigitsRev m ((j + 1) / 10)).length + 1 ≤ i + 1
        have hlt : (j + 1) / 10 < 10 ^ i := by
          rw [Nat.div_lt_iff_lt_mul (by omega)]
          calc j + 1 < 10 ^ (i + 1) := hn
            _ = 10 ^ i * 10 := by ring
        exact Nat.succ_le_succ (ih _ _ hlt)

theorem natDigitsRev_self_ne_nil (n : ℕ) (h : n ≠ 0) :
    natDigitsRev n n ≠ [] := by
  match n with
  | 0 => exact absurd rfl h
  | k + 1 => rw [natDigitsRev]; simp

theorem natToChars_ne_nil (n : ℕ) : natToChars n ≠ [] := by
  unfold natToChars
  split
  · simp
  · next h =>
    intro hc
    rw [List.reverse_eq_nil_iff, List.map_eq_nil_iff] at hc
    exact natDigitsRev_self_ne_nil n h hc

theorem mem_natToChars (n : ℕ) (c : Char) (hc : c ∈ natToChars n) :
    ∃ d, d < 10 ∧ c = digitChar d := by
  unfold natToChars at hc
  split at hc
  · refine ⟨0, by omega, ?_⟩
    rw [List.mem_singleton.mp hc]
    rfl
  · rw [List.mem_reverse] at hc
    obtain ⟨d, hd, rfl⟩ := List.mem_map.mp hc
    exact ⟨d, natDigitsRev_lt _ _ _ hd, rfl⟩

theorem parseDigitsAux_digits (M : List ℕ) : ∀ acc, (∀ d ∈ M, d < 10) →
    parseDigitsAux acc (M.map digitChar) =
      some (M.foldl (fun a d => a * 10 + d) acc) := by
  induction M with
  | nil => intro acc _; rfl
  | cons d M ih =>
    intro acc hM
    rw [List.map_cons]
    show (match charDigit (digitChar d) with
      | some d' => parseDigitsAux (acc * 10 + d') (M.map digitChar)
      | none => none) = _
    rw [charDigit_digitChar d (hM d (List.mem_cons_self d M))]
    exact ih _ (fun x hx => hM x (List.mem_cons_of_mem _ hx))

theorem foldr_digits_eq (L : List ℕ) :
    L.foldr (fun d a => a * 10 + d) 0 = digitsVal L := by
  induction L with
  | nil => rfl
  | cons d L ih =>
    show (L.foldr (fun d a => a * 10 + d) 0) * 10 + d = d + 10 * digitsVal L
    rw [ih]
    omega

theorem parseDigitsAux_rev_digits (L : List ℕ) (hL : ∀ d ∈ L, d < 10) :
    parseDigitsAux 0 (L.reverse.map digitChar) = some (digitsVal L) := by
  rw [parseDigitsAux_digits L.reverse 0
      (fun d hd => hL d (List.mem_reverse.mp hd)),
    List.foldl_reverse]
  exact congrArg some (foldr_digits_eq L)

theorem parseDigits_natToChars (n : ℕ) :
    parseDigits (natToChars n) = some n := by
  by_cases h : n = 0
  · subst h; rfl
  · unfold natToChars parseDigits
    rw [if_neg h,
      if_neg (by
        simp only [List.isEmpty_iff, List.reverse_eq_nil_iff,
          List.map_eq_nil_iff]
        exact natDigitsRev_self_ne_nil n h),
      ← List.map_reverse,
      parseDigitsAux_rev_digits _ (fun d hd => natDigitsRev_lt _ _ _ hd),
      natDigitsRev_val n n (le_refl n)]

theorem parseDigitsAux_zeros (k : ℕ) (cs : List Char) :
    parseDigitsAux 0 (List.replicate k '0' ++ cs) = parseDigitsAux 0 cs := by
  induction k with
  | zero => rfl
  | succ m ih =>
    rw [List.replicate_succ, List.cons_append]
    show parseDigitsAux (0 * 10 + 0) (List.replicate m '0' ++ cs) =
      parseDigitsAux 0 cs
    rw [show 0 * 10 + 0 = 0 from rfl]
    exact ih

theorem parseDigits_padSix_natToChars (m : ℕ) :
    parseDigits (padSix (natToChars m)) = some m := by
  have hne := natToChars_ne_nil m
  unfold padSix parseDigits
  rw [if_neg (by
      simp only [List.isEmpty_iff, List.append_eq_nil]
      intro hc
      exact hne hc.2),
    parseDigitsAux_zeros]
  have h := parseDigits_natToChars m
  unfold parseDigits at h
  rw [if_neg (by simp only [List.isEmpty_iff]; exact hne)] at h
  exact h

theorem padSix_length (cs : List Char) (h : cs.length ≤ 6) :
    (padSix cs).length = 6 := by
  unfold padSix
  rw [List.length_append, List.length_replicate]
  omega

theorem natToChars_length_le (m : ℕ) (h : m < 10 ^ 6) :
    (natToChars m).length ≤ 6 := by
  unfold natToChars
  split
  · simp
  · rw [List.length_reverse, List.length_map]
    exact natDigitsRev_length_le m m 6 h

theorem mem_padSix_natToChars (m : ℕ) (c : Char)
    (hc : c ∈ padSix (natToChars m)) : ∃ d, d < 10 ∧ c = digitChar d := by
  unfold padSix at hc
  rcases List.mem_append.mp hc with h' | h'
  · refine ⟨0, by omega, ?_⟩
    rw [List.eq_of_mem_replicate h']
    rfl
  · exact mem_natToChars m c h'

theorem takeWhile_to_dot (a rest : List Char) (ha : ∀ c ∈ a, c ≠ '.') :
    (a ++ '.' :: rest).takeWhile (fun c => !(c == '.')) = a ∧
      (a ++ '.' :: rest).dropWhile (fun c => !(c == '.')) = '.' :: rest := by
  induction a with
  | nil => exact ⟨rfl, rfl⟩
  | cons c a ih =>
    have hc : c ≠ '.' := ha c (List.mem_cons_self c a)
    obtain ⟨h1, h2⟩ := ih (fun x hx => ha x (List.mem_cons_of_mem _ hx))
    constructor
    · rw [List.cons_append, List.takeWhile_cons]
      simp only [hc, bne_iff_ne, ne_eq, not_false_eq_true, if_true, h1]
      simp [hc, h1]
    · rw [List.cons_append, List.dropWhile_cons]
      simp [hc, h2]

theorem natToChars_head (n : ℕ) :
    ∃ c t, natToChars n = c :: t ∧ ∃ d, d < 10 ∧ c = digitChar d := by
  rcases h : natToChars n with _ | ⟨c, t⟩
  · exact absurd h (natToChars_ne_nil n)
  · exact ⟨c, t, rfl,
      mem_natToChars n c (by rw [h]; exact List.mem_cons_self c t)⟩

theorem parseFloatChars_cons (c : Char) (rest : List Char) :
    parseFloatChars (c :: rest) =
      if c = '-' then (parseUnsignedFixed rest).map (fun q => -q)
      else if c = '+' then parseUnsignedFixed rest
      else parseUnsignedFixed (c :: rest) := rfl

theorem parseIntChars_cons (c : Char) (rest : List Char) :
    parseIntChars (c :: rest) =
      if c = '-' then (parseDigits rest).map (fun n : ℕ => -(n : ℤ))
      else if c = '+' then (parseDigits rest).map (fun n : ℕ => (n : ℤ))
      else (parseDigits (c :: rest)).map (fun n : ℕ => (n : ℤ)) := rfl

theorem parseUnsignedFixed_fmt (ipcs fracs : List Char) (m f : ℕ)
    (hip : ∀ c ∈ ipcs, c ≠ '.') (hipP : parseDigits ipcs = some m)
    (hfrP : parseDigits fracs = some f) (hlen : fracs.length = 6) :
    parseUnsignedFixed (ipcs ++ '.' :: fracs) =
      some ((m : ℚ) + (f : ℚ) / 10 ^ 6) := by
  obtain ⟨h1, h2⟩ := takeWhile_to_dot ipcs fracs hip
  unfold parseUnsignedFixed
  rw [h2]
  show (match parseDigits ((ipcs ++ '.' :: fracs).takeWhile
        (fun c => !(c == '.'))), parseDigits fracs with
    | some n, some f => some ((n : ℚ) + (f : ℚ) / (10 : ℚ) ^ fracs.length)
    | _, _ => none) = _
  rw [h1, hipP, hfrP]
  show some ((m : ℚ) + (f : ℚ) / (10 : ℚ) ^ fracs.length) = _
  rw [hlen]

theorem cast_div_add_mod_q (r : ℕ) :
    ((r / 1000000 : ℕ) : ℚ) + ((r % 1000000 : ℕ) : ℚ) / 10 ^ 6 =
      (r : ℚ) / 1000000 := by
  have h : ((1000000 * (r / 1000000) + r % 1000000 : ℕ) : ℚ) = (r : ℚ) := by
    rw [Nat.div_add_mod]
  push_cast at h
  have h6 : ((10 : ℚ) ^ 6) = 1000000 := by norm_num
  rw [h6]
  field_simp
  linarith

theorem round_abs_nonneg (q : ℚ) : 0 ≤ round (|q| * 1000000) := by
  rw [round_eq]
  have h : (0 : ℚ) ≤ |q| * 1000000 + 1 / 2 := by positivity
  exact Int.floor_nonneg.mpr h

theorem parseUnsignedFixed_fmt_core (q : ℚ) :
    parseUnsignedFixed
      (natToChars ((round (|q| * 1000000)).toNat / 1000000) ++
        '.' :: padSix (natToChars ((round (|q| * 1000000)).toNat % 1000000))) =
      some (((round (|q| * 1000000)).toNat : ℚ) / 1000000) := by
  have hmod : (round (|q| * 1000000)).toNat % 1000000 < 10 ^ 6 := by
    have := Nat.mod_lt ((round (|q| * 1000000)).toNat)
      (show 0 < 1000000 by norm_num)
    norm_num
    omega
  rw [parseUnsignedFixed_fmt _ _ _ _
      (fun c hc => by
        obtain ⟨d, hd, rfl⟩ := mem_natToChars _ c hc
        exact (digitChar_bounds d hd).1)
      (parseDigits_natToChars _) (parseDigits_padSix_natToChars _)
      (padSix_length _ (natToChars_length_le _ hmod))]
  exact congrArg some (cast_div_add_mod_q _)

theorem fmtFix6_eq (q : ℚ) :
    fmtFix6 q = (if q < 0 then ['-'] else []) ++
      natToChars ((round (|q| * 1000000)).toNat / 1000000) ++
      '.' :: padSix (natToChars ((round (|q| * 1000000)).toNat % 1000000)) :=
  rfl

theorem parseFloat_fmtFix6 (q : ℚ) :
    parseFloatChars (fmtFix6 q) = some (fmtVal q) := by
  have hcore := parseUnsignedFixed_fmt_core q
  by_cases hq : q < 0
  · rw [fmtFix6_eq, if_pos hq, List.singleton_append, List.cons_append,
      parseFloatChars_cons, if_pos rfl, hcore, Option.map_some']
    unfold fmtVal
    rw [if_pos hq]
    congr 1
    have hcast : (((round (|q| * 1000000)).toNat : ℚ)) =
        ((round (|q| * 1000000) : ℤ) : ℚ) := by
      exact_mod_cast congrArg (fun z : ℤ => (z : ℚ))
        (Int.toNat_of_nonneg (round_abs_nonneg q))
    rw [hcast]
    ring
  · obtain ⟨c, t, hct, d, hd, hcd⟩ :=
      natToChars_head ((round (|q| * 1000000)).toNat / 1000000)
    rw [fmtFix6_eq, if_neg hq, List.nil_append, hct, List.cons_append,
      parseFloatChars_cons,
      if_neg (by subst hcd; exact (digitChar_bounds d hd).2.2.1),
      if_neg (by subst hcd; exact (digitChar_bounds d hd).2.2.2.1),
      ← List.cons_append, ← hct, hcore]
    unfold fmtVal
    rw [if_neg hq]
    congr 1
    have hcast : (((round (|q| * 1000000)).toNat : ℚ)) =
        ((round (|q| * 1000000) : ℤ) : ℚ) := by
      exact_mod_cast congrArg (fun z : ℤ => (z : ℚ))
        (Int.toNat_of_nonneg (round_abs_nonneg q))
    rw [hcast]
    ring

theorem parseInt_intToChars (z : ℤ) :
    parseIntChars (intToChars z) = some z := by
  unfold intToChars
  split
  · next hz =>
    rw [parseIntChars_cons, if_pos rfl, parseDigits_natToChars,
      Option.map_some']
    congr 1
    omega
  · next hz =>
    obtain ⟨c, t, hct, d, hd, hcd⟩ := natToChars_head z.toNat
    rw [hct, parseIntChars_cons,
      if_neg (by subst hcd; exact (digitChar_bounds d hd).2.2.1),
      if_neg (by subst hcd; exact (digitChar_bounds d hd).2.2.2.1),
      ← hct, parseDigits_natToChars, Option.map_some']
    congr 1
    omega

/-! ## Codec lemmas: line structure -/

theorem splitTab_no_tab : ∀ (a : List Char), '\t' ∉ a → splitTab a = [a] := by
  intro a
  induction a with
  | nil => intro _; rfl
  | cons c a ih =>
    intro h
    rw [splitTab,
      if_neg (fun hc => h (by rw [← hc]; exact List.mem_cons_self c a)),
      ih (fun hm => h (List.mem_cons_of_mem c hm))]

theorem splitTab_append : ∀ (a rest : List Char), '\t' ∉ a →
    splitTab (a ++ '\t' :: rest) = a :: splitTab rest := by
  intro a
  induction a with
  | nil =>
    intro rest _
    rw [List.nil_append, splitTab, if_pos rfl]
  | cons c a ih =>
    intro rest h
    rw [List.cons_append, splitTab,
      if_neg (fun hc => h (by rw [← hc]; exact List.mem_cons_self c a)),
      ih rest (fun hm => h (List.mem_cons_of_mem c hm))]

theorem pyStrip_body (c : Char) (mid : List Char) (d : Char)
    (hc : isPySpace c = false) (hd : isPySpace d = false) :
    pyStrip ((c :: (mid ++ [d])) ++ ['\n']) = c :: (mid ++ [d]) := by
  unfold pyStrip
  have h1 : ((c :: (mid ++ [d])) ++ ['\n']).dropWhile isPySpace =
      (c :: (mid ++ [d])) ++ ['\n'] := by
    rw [List.cons_append, List.dropWhile_cons, hc]
    simp
  rw [h1]
  have h2 : ((c :: (mid ++ [d])) ++ ['\n']).reverse =
      '\n' :: (d :: (mid.reverse ++ [c])) := by
    simp [List.reverse_append]
  rw [h2]
  have h3 : (('\n' :: (d :: (mid.reverse ++ [c]))).dropWhile isPySpace) =
      d :: (mid.reverse ++ [c]) := by
    rw [List.dropWhile_cons]
    simp only [show isPySpace '\n' = true from rfl, if_true]
    rw [List.dropWhile_cons, hd]
    simp
  rw [h3]
  simp [List.reverse_append]

theorem tab_notMem_natToChars (n : ℕ) : '\t' ∉ natToChars n := by
  intro h
  obtain ⟨d, hd, hcd⟩ := mem_natToChars n '\t' h
  exact (digitChar_bounds d hd).2.1 hcd.symm

theorem tab_notMem_intToChars (z : ℤ) : '\t' ∉ intToChars z := by
  unfold intToChars
  split
  · intro h
    rcases List.mem_cons.mp h with h' | h'
    · exact absurd h' (by decide)
    · exact tab_notMem_natToChars _ h'
  · exact tab_notMem_natToChars _

theorem tab_notMem_fmtFix6 (q : ℚ) : '\t' ∉ fmtFix6 q := by
  rw [fmtFix6_eq]
  intro h
  rcases List.mem_append.mp h with h' | h'
  · rcases List.mem_append.mp h' with h'' | h''
    · split at h'' <;> simp at h''
    · exact tab_notMem_natToChars _ h''
  · rcases List.mem_cons.mp h' with h'' | h''
    · exact absurd h'' (by decide)
    · obtain ⟨d, hd, hcd⟩ := mem_padSix_natToChars _ _ h''
      exact (digitChar_bounds d hd).2.1 hcd.symm

theorem fmtFix6_head (q : ℚ) :
    ∃ c t, fmtFix6 q = c :: t ∧ isPySpace c = false := by
  rw [fmtFix6_eq]
  by_cases hq : q < 0
  · rw [if_pos hq]
    refine ⟨'-', natToChars ((round (|q| * 1000000)).toNat / 1000000) ++
      '.' :: padSix (natToChars ((round (|q| * 1000000)).toNat % 1000000)),
      ?_, rfl⟩
    rw [List.singleton_append, List.cons_append]
  · rw [if_neg hq, List.nil_append]
    obtain ⟨c, t, hct, d, hd, hcd⟩ :=
      natToChars_head ((round (|q| * 1000000)).toNat / 1000000)
    refine ⟨c, t ++ '.' :: padSix (natToChars
      ((round (|q| * 1000000)).toNat % 1000000)), ?_, ?_⟩
    · rw [hct, List.cons_append]
    · subst hcd
      exact (digitChar_bounds d hd).2.2.2.2

theorem natToChars_last (m : ℕ) :
    ∃ u d, natToChars m = u ++ [d] ∧ isPySpace d = false := by
  rcases List.eq_nil_or_concat (natToChars m) with h | ⟨u, d, h⟩
  · exact absurd h (natToChars_ne_nil m)
  · refine ⟨u, d, by rw [h, List.concat_eq_append], ?_⟩
    obtain ⟨e, he, hde⟩ := mem_natToChars m d (by
      rw [h, List.concat_eq_append]
      exact List.mem_append_right u (List.mem_singleton.mpr rfl))
    subst hde
    exact (digitChar_bounds e he).2.2.2.2

theorem intToChars_last (z : ℤ) :
    ∃ u d, intToChars z = u ++ [d] ∧ isPySpace d = false := by
  unfold intToChars
  split
  · obtain ⟨u, d, h, hd⟩ := natToChars_last z.natAbs
    refine ⟨'-' :: u, d, ?_, hd⟩
    rw [h, List.cons_append]
  · exact natToChars_last z.toNat

theorem noteToLine_eq (n : AnnNote) :
    noteToLine n = (fmtFix6 n.onset ++ '\t' :: (fmtFix6 n.offset ++ '\t' ::
      (intToChars n.pitch ++ '\t' :: intToChars n.velocity))) ++ ['\n'] := by
  unfold noteToLine
  simp [List.append_assoc, List.cons_append]

theorem pyStrip_noteToLine (n : AnnNote) :
    pyStrip (noteToLine n) = fmtFix6 n.onset ++ '\t' :: (fmtFix6 n.offset ++
      '\t' :: (intToChars n.pitch ++ '\t' :: intToChars n.velocity)) := by
  obtain ⟨c, t, hct, hc⟩ := fmtFix6_head n.onset
  obtain ⟨u, d, hud, hd⟩ := intToChars_last n.velocity
  have hbody : fmtFix6 n.onset ++ '\t' :: (fmtFix6 n.offset ++
      '\t' :: (intToChars n.pitch ++ '\t' :: intToChars n.velocity)) =
      c :: ((t ++ '\t' :: (fmtFix6 n.offset ++ '\t' ::
        (intToChars n.pitch ++ '\t' :: u))) ++ [d]) := by
    rw [hct, hud]
    simp [List.append_assoc, List.cons_append]
  rw [noteToLine_eq, hbody]
  exact pyStrip_body c _ d hc hd

theorem splitTab_noteToLine (n : AnnNote) :
    splitTab (pyStrip (noteToLine n)) =
      [fmtFix6 n.onset, fmtFix6 n.offset, intToChars n.pitch,
        intToChars n.velocity] := by
  rw [pyStrip_noteToLine,
    splitTab_append _ _ (tab_notMem_fmtFix6 _),
    splitTab_append _ _ (tab_notMem_fmtFix6 _),
    splitTab_append _ _ (tab_notMem_intToChars _),
    splitTab_no_tab _ (tab_notMem_intToChars _)]

theorem parseAnnLine_noteToLine (n : AnnNote) :
    parseAnnLine (noteToLine n) = some (normNote n) := by
  unfold parseAnnLine
  rw [splitTab_noteToLine]
  show (match parseFloatChars (fmtFix6 n.onset),
      parseFloatChars (fmtFix6 n.offset),
      parseIntChars (intToChars n.pitch),
      parseIntChars (intToChars n.velocity) with
    | some onset, some offset, some pitch, some velocity =>
      some (⟨onset, offset, pitch, velocity⟩ : AnnNote)
    | _, _, _, _ => none) = some (normNote n)
  rw [parseFloat_fmtFix6, parseFloat_fmtFix6, parseInt_intToChars,
    parseInt_intToChars]
  rfl

theorem length_filterMap_of_isSome {α β : Type} (f : α → Option β) :
    ∀ l : List α, (∀ x ∈ l, (f x).isSome = true) →
      (l.filterMap f).length = l.length := by
  intro l
  induction l with
  | nil => intro _; rfl
  | cons a l ih =>
    intro h
    rcases hfa : f a with _ | b
    · have hsome := h a (List.mem_cons_self a l)
      rw [hfa] at hsome
      exact absurd hsome (by simp)
    · rw [List.filterMap_cons_some hfa, List.length_cons, List.length_cons,
        ih (fun x hx => h x (List.mem_cons_of_mem a hx))]

theorem ann_to_midi_notes_encode (notes : List AnnNote) :
    ann_to_midi_notes (midi_to_ann_lines notes) = notes.map normNote := by
  induction notes with
  | nil => rfl
  | cons n notes ih =>
    show (noteToLine n :: midi_to_ann_lines notes).filterMap parseAnnLine = _
    rw [List.filterMap_cons_some (parseAnnLine_noteToLine n), List.map_cons]
    exact congrArg _ ih

/-- C7: decoding an annotation whose lines are all well-formed
(`ann_to_midi`, main.py:121-146) and re-encoding the resulting note
sequence (`midi_to_ann`, main.py:85) reproduces the same event count, and
re-decoding gives back exactly the same notes up to the 6-decimal
formatting of onsets and offsets (`normNote`): pitch and velocity are
preserved exactly.  Malformed lines (wrong field count or unparsable
fields) are skipped rather than failing the decode: removing such a line
does not change the decoded notes. -/
theorem ann_codec_roundtrip :
    (∀ lines : List (List Char),
      (∀ l ∈ lines, (parseAnnLine l).isSome = true) →
      (midi_to_ann_lines (ann_to_midi_notes lines)).length = lines.length ∧
        ann_to_midi_notes (midi_to_ann_lines (ann_to_midi_notes lines)) =
          (ann_to_midi_notes lines).map normNote) ∧
    ∀ (pre post : List (List Char)) (bad : List Char),
      parseAnnLine bad = none →
      ann_to_midi_notes (pre ++ bad :: post) =
        ann_to_midi_notes (pre ++ post) := by
  constructor
  · intro lines h
    constructor
    · unfold midi_to_ann_lines
      rw [List.length_map]
      exact length_filterMap_of_isSome parseAnnLine lines h
    · exact ann_to_midi_notes_encode _
  · intro pre post bad hbad
    unfold ann_to_midi_notes
    rw [List.filterMap_append, List.filterMap_append,
      List.filterMap_cons_none hbad]

/-- C7 (witness): the round trip applied to a concrete two-line well-formed
annotation, and the skip of a concrete malformed line. -/
theorem ann_codec_roundtrip_witness :
    ((midi_to_ann_lines (ann_to_midi_notes
        ["1.5\t2.25\t60\t80".data, "0.25\t0.5\t64\t100".data])).length =
      (["1.5\t2.25\t60\t80".data, "0.25\t0.5\t64\t100".data] :
        List (List Char)).length) ∧
      ann_to_midi_notes (["1.5\t2.25\t60\t80".data] ++ "oops".data ::
          ["0.25\t0.5\t64\t100".data]) =
        ann_to_midi_notes (["1.5\t2.25\t60\t80".data] ++
          ["0.25\t0.5\t64\t100".data]) :=
  ⟨(ann_codec_roundtrip.1 _ (by decide)).1,
   ann_codec_roundtrip.2 _ _ _ (by decide)⟩
